import Mathlib

/-!
Shallow embedding of the CO2-emissions dashboard's data pipeline
(`streamlit_app.py`): the loader `load_emissions` and the derived-metric
blocks of `main` (country-series filter, global-share computation, top-10
ranking, rank evolution, Lorenz curve).  Machine floats are modelled as
exact rationals; a pandas NaN produced by a zero division is modelled as
`Option.none`; a raised Python exception is modelled through `Except`.
Pandas `groupby` sorts groups by key, which is embedded by an explicit
insertion sort over the deduplicated key list.
-/

namespace CO2

/-- ASCII uppercase of a character, mirroring the effect of Python's
`str.upper` on the ASCII country codes of the dataset. -/
def upChar (c : Char) : Char :=
  if 97 ≤ c.toNat ∧ c.toNat ≤ 122 then Char.ofNat (c.toNat - 32) else c

/-- ASCII uppercase of a string (`df["code"].astype(str).str.upper()`). -/
def upStr (s : String) : String := ⟨s.data.map upChar⟩

/-- Row of the loaded emissions table; the fields are declared in the
column order `country, code, year, co2` produced by line 52 of the source
(`return df[["country", "code", "year", "co2"]]`). -/
structure Row where
  country : String
  code : String
  year : Int
  co2 : ℚ
deriving DecidableEq, Repr

/-- Raw row of the delimited input file after the header rename
`Entity→country, Code→code, Year→year`; `extra` holds the values of the
remaining columns, aligned with `CSVFile.extraHeaders`, `none` being a
missing value.  Per the external-interface contract the three known
columns are present and `Year` parses to an integer. -/
structure RawRow where
  entity : String
  code : String
  year : Int
  extra : List (Option ℚ)
deriving DecidableEq, Repr

/-- Model of a well-formed delimited input file: the headers of the
columns other than `Entity`/`Code`/`Year` (in original column order) and
the data rows. -/
structure CSVFile where
  extraHeaders : List String
  rows : List RawRow
deriving DecidableEq, Repr

/-- Failures of the loader: `FileNotFoundError` for a missing path and
`ValueError` (the spec's `SchemaError`) for a missing value column. -/
inductive LoadError where
  | notFound
  | schemaError
deriving DecidableEq, Repr

/-- Column names excluded when detecting the emissions-value column
(line 41 of the source). -/
def knownCols : List String := ["country", "code", "year"]

/-- Index (among the extra columns) of the first column that is not one
of the known columns, mirroring `value_cols[0]` of the source. -/
def co2Index (headers : List String) : Option Nat :=
  headers.findIdx? (fun c => !(knownCols.contains c))

/-- Embedding of `load_emissions`.  The input is `none` when the path
does not exist.  Steps in source order: uppercase `code`, keep rows whose
code has length 3, fail when no value column remains, take the first
value column as `co2`, drop rows with missing `co2`, and emit rows with
columns `country, code, year, co2`. -/
def load (file : Option CSVFile) : Except LoadError (List Row) :=
  match file with
  | none => .error .notFound
  | some f =>
      let kept := (f.rows.map (fun r => { r with code := upStr r.code })).filter
        (fun r => r.code.length == 3)
      match co2Index f.extraHeaders with
      | none => .error .schemaError
      | some i =>
          .ok (kept.filterMap (fun r =>
            match r.extra.getD i none with
            | none => none
            | some v => some ⟨r.entity, r.code, r.year, v⟩))

/-- Per-raw-row outcome of the loader given the value-column index `i`:
`none` when the row is dropped (code not of length 3 after uppercasing,
or missing `co2`), otherwise the produced output row. -/
def convRow (i : Nat) (r : RawRow) : Option Row :=
  if (upStr r.code).length = 3 then
    match r.extra.getD i none with
    | none => none
    | some v => some ⟨r.entity, upStr r.code, r.year, v⟩
  else none

/-- Insert an element into a list, before the first element it is
`le`-below; the building block of the stable insertion sort used to embed
the sorting steps of the pipeline. -/
def insertLe (le : α → α → Bool) (a : α) : List α → List α
  | [] => [a]
  | b :: l => if le a b then a :: b :: l else b :: insertLe le a l

/-- Stable insertion sort by the boolean relation `le`. -/
def sortLe (le : α → α → Bool) : List α → List α
  | [] => []
  | a :: l => insertLe le a (sortLe le l)

/-- Lexicographic comparison of character lists, the order underlying
string comparison. -/
def chListLe : List Char → List Char → Bool
  | [], _ => true
  | _ :: _, [] => false
  | a :: as, b :: bs => if a = b then chListLe as bs else decide (a < b)

/-- Lexicographic string comparison (kernel-reducible). -/
def strLe (s t : String) : Bool := chListLe s.data t.data

/-- Comparison of integer keys (years). -/
def intLe (a b : Int) : Bool := decide (a ≤ b)

/-- Lexicographic comparison of pairs from comparisons of the parts. -/
def lexLe [DecidableEq α] (le₁ : α → α → Bool) (le₂ : β → β → Bool)
    (a b : α × β) : Bool :=
  if a.1 = b.1 then le₂ a.2 b.2 else le₁ a.1 b.1

/-- Descending comparison by the rational second component, used for the
`sort_values("co2", ascending=False)` steps. -/
def descBySnd (a b : α × ℚ) : Bool := decide (b.2 ≤ a.2)

/-- Ascending comparison by the rational second component, used for the
`sort_values("co2")` step of the Lorenz block. -/
def ascBySnd (a b : α × ℚ) : Bool := decide (a.2 ≤ b.2)

/-- Sum of the values attached to the key `k` in a list of key/value
pairs: the aggregated value of the group of `k` under `agg({"co2": "sum"})`. -/
def sumKey [DecidableEq K] (k : K) (ps : List (K × ℚ)) : ℚ :=
  ((ps.filter (fun p => p.1 = k)).map Prod.snd).sum

/-- Embedding of `groupby(key).agg({"co2": "sum"})`: one output pair per
distinct key, keys sorted ascending by `le` (pandas sorts group keys),
each carrying the sum of its group's values. -/
def groupSum [DecidableEq K] (le : K → K → Bool) (ps : List (K × ℚ)) :
    List (K × ℚ) :=
  (sortLe le (ps.map Prod.fst).dedup).map (fun k => (k, sumKey k ps))

/-- Sum of the grouped values of a list of keys: the total attached to
the keys `ks` by the grouping of `ps`. -/
def sumOver [DecidableEq K] (ks : List K) (ps : List (K × ℚ)) : ℚ :=
  (ks.map (fun k => sumKey k ps)).sum

/-- Country-comparison filter (source lines 196-199): rows whose country
is selected and whose year lies in the inclusive range. -/
def countrySeries (table : List Row) (countries : List String)
    (yearLo yearHi : Int) : List Row :=
  table.filter (fun r => r.country ∈ countries ∧ yearLo ≤ r.year ∧ r.year ≤ yearHi)

/-- Year/value pairs of a table, the input of the global grouping. -/
def yearPairs (table : List Row) : List (Int × ℚ) :=
  table.map (fun r => (r.year, r.co2))

/-- Embedding of `df_co2.groupby("year").agg({"co2": "sum"})` (source
lines 205-209 and 270-274), sorted ascending by year. -/
def globalYearlyTotals (table : List Row) : List (Int × ℚ) :=
  groupSum intLe (yearPairs table)

/-- Lookup of a year in the global totals, the effect of the
`merge(df_global, on="year", how="left")` join for one row. -/
def lookupYear (g : List (Int × ℚ)) (y : Int) : Option ℚ :=
  (g.find? (fun p => p.1 = y)).map Prod.snd

/-- Share of one row in the global emissions of its year
(`df_range["co2"] / df_range["co2_global"] * 100`, source line 211);
`none` models the NaN of a missing join partner or of a zero division. -/
def shareOf (table : List Row) (r : Row) : Option ℚ :=
  match lookupYear (globalYearlyTotals table) r.year with
  | none => none
  | some t => if t = 0 then none else some (r.co2 / t * 100)

/-- Output row of the global-share block. -/
structure ShareRow where
  country : String
  year : Int
  co2 : ℚ
  share : Option ℚ
deriving DecidableEq, Repr

/-- Global-share computation (source lines 204-211) applied to an
already-filtered series of rows. -/
def globalSharePercent (table series : List Row) : List ShareRow :=
  series.map (fun r => ⟨r.country, r.year, r.co2, shareOf table r⟩)

/-- Country/value pairs of the rows of one year, the input of the
groupings by country alone (top-10 and Lorenz blocks). -/
def countryPairsOfYear (table : List Row) (y : Int) : List (String × ℚ) :=
  (table.filter (fun r => r.year = y)).map (fun r => (r.country, r.co2))

/-- (country, code)/value pairs of the rows of one year, the input of
`groupby(["country", "code"])`. -/
def ccPairsOfYear (table : List Row) (y : Int) : List ((String × String) × ℚ) :=
  (table.filter (fun r => r.year = y)).map (fun r => ((r.country, r.code), r.co2))

/-- Embedding of the per-year totals table (source lines 152-157):
filter to the year, group by `(country, code)` summing `co2`, sort
descending by `co2`. -/
def yearTotalsByCountry (table : List Row) (y : Int) :
    List ((String × String) × ℚ) :=
  sortLe descBySnd (groupSum (lexLe strLe strLe) (ccPairsOfYear table y))

/-- Embedding of the top-N block (source lines 244-250): filter to the
year, group by country alone summing `co2`, sort descending, take the
first `n` (the source uses `head(10)`). -/
def topN (table : List Row) (y : Int) (n : Nat) : List (String × ℚ) :=
  (sortLe descBySnd (groupSum strLe (countryPairsOfYear table y))).take n

/-- Definition following the spec's words for the top-N claim: collapse
a `(country, code)` totals table by country alone, summing over the
codes of each country. -/
def collapseByCountry (g : List ((String × String) × ℚ)) : List (String × ℚ) :=
  groupSum strLe (g.map (fun p => (p.1.1, p.2)))

/-- (year, country)/value pairs of the rows of an inclusive year range,
the input of the rank-evolution grouping (source lines 334-340). -/
def rangePairs (table : List Row) (yearLo yearHi : Int) :
    List ((Int × String) × ℚ) :=
  (table.filter (fun r => yearLo ≤ r.year ∧ r.year ≤ yearHi)).map
    (fun r => ((r.year, r.country), r.co2))

/-- Totals per (year, country) over a year range, over all countries. -/
def yearCountryTotals (table : List Row) (yearLo yearHi : Int) :
    List ((Int × String) × ℚ) :=
  groupSum (lexLe intLe strLe) (rangePairs table yearLo yearHi)

/-- Output row of the rank-evolution block. -/
structure RankRow where
  year : Int
  country : String
  co2 : ℚ
  rank : Nat
deriving DecidableEq, Repr

/-- Ranked totals of every country of the range (source lines 334-346):
the rank of a (year, country) total is one more than the number of
countries of the same year with a strictly greater total — pandas
`rank(ascending=False, method="min")`. -/
def rankEvolutionAll (table : List Row) (yearLo yearHi : Int) : List RankRow :=
  let g := yearCountryTotals table yearLo yearHi
  g.map (fun p =>
    ⟨p.1.1, p.1.2, p.2,
      1 + (g.filter (fun q => q.1.1 = p.1.1 ∧ p.2 < q.2)).length⟩)

/-- Rank-evolution view (source lines 334-348): rank over all countries
of the range, then restrict to the requested countries. -/
def rankEvolution (table : List Row) (countries : List String)
    (yearLo yearHi : Int) : List RankRow :=
  (rankEvolutionAll table yearLo yearHi).filter (fun r => r.country ∈ countries)

/-- Per-country totals of one year with non-positive totals removed,
sorted ascending by total (source lines 385-395). -/
def lorenzBase (table : List Row) (y : Int) : List (String × ℚ) :=
  sortLe ascBySnd ((groupSum strLe (countryPairsOfYear table y)).filter
    (fun p => 0 < p.2))

/-- Lorenz-curve points (source lines 385-398): for the `n` remaining
countries sorted ascending, the 1-indexed `i`-th point is
`(i / n, cumulativeSum i / totalSum)`. -/
def lorenzCurve (table : List Row) (y : Int) : List (ℚ × ℚ) :=
  let s := lorenzBase table y
  let n := s.length
  let total := (s.map Prod.snd).sum
  (List.range n).map (fun i =>
    ((((i : ℕ) + 1 : ℕ) : ℚ) / (n : ℚ), ((s.take (i + 1)).map Prod.snd).sum / total))

/-- End-to-end example table of the spec:
`[("A","AAA",2000,10), ("B","BBB",2000,30), ("A","AAA",2001,12)]`. -/
def exTable : List Row :=
  [⟨"A", "AAA", 2000, 10⟩, ⟨"B", "BBB", 2000, 30⟩, ⟨"A", "AAA", 2001, 12⟩]

/-- Synthetic year with totals `{A: 100, B: 100, C: 50}` for the
rank-evolution tie example. -/
def exRankTable : List Row :=
  [⟨"A", "AAA", 2000, 100⟩, ⟨"B", "BBB", 2000, 100⟩, ⟨"C", "CCC", 2000, 50⟩]

/-- Synthetic year with emissions `{5, 5, 10}` for the Lorenz example. -/
def exLorenzTable : List Row :=
  [⟨"A", "AAA", 2000, 5⟩, ⟨"B", "BBB", 2000, 5⟩, ⟨"C", "CCC", 2000, 10⟩]

/-- Table whose single year has a zero global total. -/
def exZeroTable : List Row :=
  [⟨"A", "AAA", 2000, 0⟩, ⟨"B", "BBB", 2000, 0⟩]

/-- Well-formed input file with one value column and a mix of rows that
survive and rows that are dropped by the loader. -/
def exCsv : CSVFile :=
  ⟨["Annual CO2 emissions"],
   [⟨"Chile", "chl", 2000, [some 10]⟩,
    ⟨"World", "OWID_WRL", 2000, [some 99]⟩,
    ⟨"Chile", "CHL", 2001, [none]⟩,
    ⟨"Peru", "PER", 2000, [some 7]⟩]⟩

/-- Input file whose only extra column is itself named `country`, so no
value column remains after removing the known columns. -/
def exCsvNoValue : CSVFile := ⟨["country"], [⟨"Chile", "CHL", 2000, []⟩]⟩

theorem chListLe_total : ∀ as bs : List Char, chListLe as bs ∨ chListLe bs as
  | [], _ => Or.inl rfl
  | _ :: _, [] => Or.inr rfl
  | a :: as, b :: bs => by
      by_cases hab : a = b
      · subst hab
        rcases chListLe_total as bs with h | h
        · exact Or.inl (by simpa [chListLe] using h)
        · exact Or.inr (by simpa [chListLe] using h)
      · rcases lt_or_gt_of_ne hab with h | h
        · exact Or.inl (by simp [chListLe, hab, h])
        · exact Or.inr (by simp [chListLe, Ne.symm hab, h])

theorem chListLe_trans : ∀ as bs cs : List Char,
    chListLe as bs → chListLe bs cs → chListLe as cs
  | [], _, _, _, _ => rfl
  | _ :: _, [], _, h, _ => by simp [chListLe] at h
  | _ :: _, _ :: _, [], _, h => by simp [chListLe] at h
  | a :: as, b :: bs, c :: cs, h1, h2 => by
      by_cases hab : a = b <;> by_cases hbc : b = c
      · subst hab; subst hbc
        simp only [chListLe, if_pos rfl] at h1 h2 ⊢
        exact chListLe_trans as bs cs h1 h2
      · subst hab
        simpa [chListLe, hbc] using h2
      · subst hbc
        simpa [chListLe, hab] using h1
      · simp only [chListLe, if_neg hab] at h1
        simp only [chListLe, if_neg hbc] at h2
        have hac : a < c := lt_trans (of_decide_eq_true h1) (of_decide_eq_true h2)
        simp [chListLe, ne_of_lt hac, hac]

theorem chListLe_antisymm : ∀ as bs : List Char,
    chListLe as bs → chListLe bs as → as = bs
  | [], [], _, _ => rfl
  | [], _ :: _, _, h => by simp [chListLe] at h
  | _ :: _, [], h, _ => by simp [chListLe] at h
  | a :: as, b :: bs, h1, h2 => by
      by_cases hab : a = b
      · subst hab
        simp only [chListLe, if_pos rfl] at h1 h2
        exact congrArg (a :: ·) (chListLe_antisymm as bs h1 h2)
      · simp only [chListLe, if_neg hab, if_neg (Ne.symm hab)] at h1 h2
        exact absurd (of_decide_eq_true h2) (lt_asymm (of_decide_eq_true h1))

theorem strLe_total (s t : String) : strLe s t ∨ strLe t s :=
  chListLe_total s.data t.data

theorem strLe_trans (s t u : String) : strLe s t → strLe t u → strLe s u :=
  chListLe_trans s.data t.data u.data

theorem strLe_antisymm (s t : String) : strLe s t → strLe t s → s = t :=
  fun h1 h2 => String.ext (chListLe_antisymm s.data t.data h1 h2)

theorem intLe_total (a b : Int) : intLe a b ∨ intLe b a := by
  simp only [intLe, decide_eq_true_eq]; omega

theorem intLe_trans (a b c : Int) : intLe a b → intLe b c → intLe a c := by
  simp only [intLe, decide_eq_true_eq]; omega

theorem intLe_antisymm (a b : Int) : intLe a b → intLe b a → a = b := by
  simp only [intLe, decide_eq_true_eq]; omega

theorem lexLe_total [DecidableEq α] {le₁ : α → α → Bool} {le₂ : β → β → Bool}
    (h1 : ∀ a b, le₁ a b ∨ le₁ b a) (h2 : ∀ a b, le₂ a b ∨ le₂ b a)
    (a b : α × β) : lexLe le₁ le₂ a b ∨ lexLe le₁ le₂ b a := by
  by_cases hf : a.1 = b.1
  · rcases h2 a.2 b.2 with h | h
    · exact Or.inl (by simp [lexLe, hf, h])
    · exact Or.inr (by simp [lexLe, hf.symm, h])
  · rcases h1 a.1 b.1 with h | h
    · exact Or.inl (by simp [lexLe, hf, h])
    · exact Or.inr (by simp [lexLe, Ne.symm hf, h])

theorem lexLe_trans [DecidableEq α] {le₁ : α → α → Bool} {le₂ : β → β → Bool}
    (h1t : ∀ a b c, le₁ a b → le₁ b c → le₁ a c)
    (h1a : ∀ a b, le₁ a b → le₁ b a → a = b)
    (h2t : ∀ a b c, le₂ a b → le₂ b c → le₂ a c)
    (a b c : α × β) :
    lexLe le₁ le₂ a b → lexLe le₁ le₂ b c → lexLe le₁ le₂ a c := by
  intro hab hbc
  by_cases hf1 : a.1 = b.1 <;> by_cases hf2 : b.1 = c.1
  · simp only [lexLe, if_pos hf1] at hab
    simp only [lexLe, if_pos hf2] at hbc
    simp [lexLe, hf1.trans hf2, h2t _ _ _ hab hbc]
  · simp only [lexLe, if_neg hf2] at hbc
    have hac : a.1 ≠ c.1 := fun h => hf2 (hf1 ▸ h)
    simp only [lexLe, if_neg hac]
    exact hf1 ▸ hbc
  · simp only [lexLe, if_neg hf1] at hab
    have hac : a.1 ≠ c.1 := fun h => hf1 (h.trans hf2.symm)
    simp only [lexLe, if_neg hac]
    exact hf2 ▸ hab
  · simp only [lexLe, if_neg hf1] at hab
    simp only [lexLe, if_neg hf2] at hbc
    have hac : a.1 ≠ c.1 := by
      intro h
      exact hf1 (h1a _ _ hab (h ▸ hbc))
    simp [lexLe, hac, h1t _ _ _ hab hbc]

theorem lexLe_antisymm [DecidableEq α] {le₁ : α → α → Bool} {le₂ : β → β → Bool}
    (h1a : ∀ a b, le₁ a b → le₁ b a → a = b)
    (h2a : ∀ a b, le₂ a b → le₂ b a → a = b)
    (a b : α × β) : lexLe le₁ le₂ a b → lexLe le₁ le₂ b a → a = b := by
  intro hab hba
  by_cases hf : a.1 = b.1
  · simp only [lexLe, if_pos hf, if_pos hf.symm] at hab hba
    exact Prod.ext hf (h2a _ _ hab hba)
  · simp only [lexLe, if_neg hf, if_neg (Ne.symm hf)] at hab hba
    exact absurd (h1a _ _ hab hba) hf

theorem descBySnd_total (a b : α × ℚ) : descBySnd a b ∨ descBySnd b a := by
  simp only [descBySnd, decide_eq_true_eq]
  exact (le_total b.2 a.2).imp id id

theorem descBySnd_trans (a b c : α × ℚ) :
    descBySnd a b → descBySnd b c → descBySnd a c := by
  simp only [descBySnd, decide_eq_true_eq]
  exact fun h1 h2 => le_trans h2 h1

theorem ascBySnd_total (a b : α × ℚ) : ascBySnd a b ∨ ascBySnd b a := by
  simp only [ascBySnd, decide_eq_true_eq]
  exact (le_total a.2 b.2).imp id id

theorem ascBySnd_trans (a b c : α × ℚ) :
    ascBySnd a b → ascBySnd b c → ascBySnd a c := by
  simp only [ascBySnd, decide_eq_true_eq]
  exact fun h1 h2 => le_trans h1 h2

theorem insertLe_perm (le : α → α → Bool) (a : α) (l : List α) :
    (insertLe le a l).Perm (a :: l) := by
  induction l with
  | nil => simp [insertLe]
  | cons b l ih =>
      by_cases h : le a b
      · simp [insertLe, h]
      · simp only [insertLe, if_neg h]
        exact (ih.cons b).trans (List.Perm.swap a b l)

theorem mem_insertLe {le : α → α → Bool} {a x : α} {l : List α} :
    x ∈ insertLe le a l ↔ x = a ∨ x ∈ l := by
  rw [(insertLe_perm le a l).mem_iff, List.mem_cons]

theorem sortLe_perm (le : α → α → Bool) (l : List α) : (sortLe le l).Perm l := by
  induction l with
  | nil => rfl
  | cons a l ih => exact (insertLe_perm le a (sortLe le l)).trans (ih.cons a)

theorem mem_sortLe {le : α → α → Bool} {x : α} {l : List α} :
    x ∈ sortLe le l ↔ x ∈ l :=
  (sortLe_perm le l).mem_iff

theorem sortLe_nodup {le : α → α → Bool} {l : List α} (h : l.Nodup) :
    (sortLe le l).Nodup :=
  ((sortLe_perm le l).nodup_iff).mpr h

theorem insertLe_pairwise {le : α → α → Bool}
    (htot : ∀ a b, le a b ∨ le b a) (htr : ∀ a b c, le a b → le b c → le a c)
    (a : α) {l : List α} (h : l.Pairwise (fun x y => le x y = true)) :
    (insertLe le a l).Pairwise (fun x y => le x y = true) := by
  induction l with
  | nil => simp [insertLe]
  | cons b l ih =>
      rw [List.pairwise_cons] at h
      by_cases hab : le a b
      · simp only [insertLe, if_pos hab, List.pairwise_cons]
        refine ⟨?_, h⟩
        intro y hy
        rcases List.mem_cons.mp hy with rfl | hy
        · exact hab
        · exact htr a b y hab (h.1 y hy)
      · have hba : le b a := (htot a b).resolve_left (fun hh => hab hh)
        simp only [insertLe, if_neg hab, List.pairwise_cons]
        refine ⟨?_, ih h.2⟩
        intro y hy
        rcases mem_insertLe.mp hy with rfl | hy
        · exact hba
        · exact h.1 y hy

theorem sortLe_pairwise {le : α → α → Bool}
    (htot : ∀ a b, le a b ∨ le b a) (htr : ∀ a b c, le a b → le b c → le a c)
    (l : List α) : (sortLe le l).Pairwise (fun x y => le x y = true) := by
  induction l with
  | nil => simp [sortLe]
  | cons a l ih => exact insertLe_pairwise htot htr a ih

theorem sortLe_eq_of_perm {le : α → α → Bool}
    (htot : ∀ a b, le a b ∨ le b a) (htr : ∀ a b c, le a b → le b c → le a c)
    (hanti : ∀ a b, le a b → le b a → a = b)
    {l₁ l₂ : List α} (h : l₁.Perm l₂) : sortLe le l₁ = sortLe le l₂ := by
  refine @List.eq_of_perm_of_sorted _ (fun x y => le x y = true)
    ⟨fun a b h1 h2 => hanti a b h1 h2⟩ _ _ ?_ ?_ ?_
  · exact (sortLe_perm le l₁).trans (h.trans (sortLe_perm le l₂).symm)
  · exact sortLe_pairwise htot htr l₁
  · exact sortLe_pairwise htot htr l₂

theorem chOfNatToNat (n : Nat) (h1 : 65 ≤ n) (h2 : n ≤ 90) :
    (Char.ofNat n).toNat = n := by
  interval_cases n <;> decide

theorem upChar_upChar (c : Char) : upChar (upChar c) = upChar c := by
  by_cases h : 97 ≤ c.toNat ∧ c.toNat ≤ 122
  · have ht : (Char.ofNat (c.toNat - 32)).toNat = c.toNat - 32 :=
      chOfNatToNat _ (by omega) (by omega)
    simp only [upChar, if_pos h, ht]
    rw [if_neg (by omega)]
  · simp only [upChar, if_neg h]

theorem upStr_upStr (s : String) : upStr (upStr s) = upStr s := by
  refine String.ext ?_
  show (s.data.map upChar).map upChar = s.data.map upChar
  rw [List.map_map]
  exact List.map_congr_left (fun c _ => upChar_upChar c)

theorem upStr_length (s : String) : (upStr s).length = s.length := by
  show (s.data.map upChar).length = s.data.length
  exact List.length_map s.data upChar

theorem sumKey_cons [DecidableEq K] (k : K) (p : K × ℚ) (ps : List (K × ℚ)) :
    sumKey k (p :: ps) = (if p.1 = k then p.2 else 0) + sumKey k ps := by
  by_cases h : p.1 = k
  · simp [sumKey, List.filter_cons, h]
  · simp [sumKey, List.filter_cons, h]

theorem sumKey_perm [DecidableEq K] (k : K) {ps₁ ps₂ : List (K × ℚ)}
    (h : ps₁.Perm ps₂) : sumKey k ps₁ = sumKey k ps₂ :=
  List.Perm.sum_eq ((h.filter _).map Prod.snd)

theorem groupSum_perm [DecidableEq K] {le : K → K → Bool}
    (htot : ∀ a b, le a b ∨ le b a) (htr : ∀ a b c, le a b → le b c → le a c)
    (hanti : ∀ a b, le a b → le b a → a = b)
    {ps₁ ps₂ : List (K × ℚ)} (h : ps₁.Perm ps₂) :
    groupSum le ps₁ = groupSum le ps₂ := by
  unfold groupSum
  rw [sortLe_eq_of_perm htot htr hanti ((h.map Prod.fst).dedup)]
  exact List.map_congr_left (fun k _ => by rw [sumKey_perm k h])

theorem groupSum_keys [DecidableEq K] (le : K → K → Bool) (ps : List (K × ℚ)) :
    (groupSum le ps).map Prod.fst = sortLe le (ps.map Prod.fst).dedup := by
  rw [groupSum, List.map_map]
  have hc : (Prod.fst ∘ fun k : K => (k, sumKey k ps)) = id := rfl
  rw [hc, List.map_id]

theorem mem_groupSum [DecidableEq K] {le : K → K → Bool} {ps : List (K × ℚ)}
    {p : K × ℚ} (h : p ∈ groupSum le ps) :
    p.2 = sumKey p.1 ps ∧ p.1 ∈ ps.map Prod.fst := by
  rcases List.mem_map.mp (show p ∈ _ from h) with ⟨k, hk, rfl⟩
  exact ⟨rfl, List.mem_dedup.mp (mem_sortLe.mp hk)⟩

theorem sumOver_nil [DecidableEq K] : ∀ ks : List K,
    sumOver ks ([] : List (K × ℚ)) = 0
  | [] => rfl
  | k :: ks => by
      have ih := sumOver_nil ks
      simp only [sumOver, List.map_cons, List.sum_cons] at ih ⊢
      rw [ih]
      simp [sumKey]

theorem sumOver_cons [DecidableEq K] (p : K × ℚ) (ps : List (K × ℚ)) :
    ∀ ks : List K, ks.Nodup →
      sumOver ks (p :: ps) = (if p.1 ∈ ks then p.2 else 0) + sumOver ks ps
  | [], _ => by simp [sumOver]
  | k :: ks, h => by
      rcases List.nodup_cons.mp h with ⟨hk, hnd⟩
      have ih := sumOver_cons p ps ks hnd
      simp only [sumOver, List.map_cons, List.sum_cons] at ih ⊢
      rw [sumKey_cons, ih]
      by_cases hx : p.1 = k
      · subst hx
        rw [if_pos rfl, if_pos (List.mem_cons_self _ _), if_neg hk]
        ring
      · rw [if_neg hx]
        have hmem : (p.1 ∈ k :: ks) ↔ (p.1 ∈ ks) := by simp [List.mem_cons, hx]
        by_cases hin : p.1 ∈ ks
        · rw [if_pos (hmem.mpr hin), if_pos hin]; ring
        · rw [if_neg (fun hh => hin (hmem.mp hh)), if_neg hin]; ring

theorem sumOver_eq_sumKey_map [DecidableEq K] [DecidableEq L] (f : K → L)
    (c : L) : ∀ (ps : List (K × ℚ)) (ks : List K), ks.Nodup →
      (∀ q ∈ ps, f q.1 = c → q.1 ∈ ks) → (∀ k ∈ ks, f k = c) →
      sumOver ks ps = sumKey c (ps.map (fun q => (f q.1, q.2)))
  | [], ks, _, _, _ => by
      rw [sumOver_nil ks]
      simp [sumKey]
  | p :: ps, ks, hnd, hcov, hin => by
      have ih := sumOver_eq_sumKey_map f c ps ks hnd
        (fun q hq => hcov q (List.mem_cons_of_mem p hq)) hin
      rw [sumOver_cons p ps ks hnd, List.map_cons, sumKey_cons, ih]
      congr 1
      by_cases hc : f p.1 = c
      · rw [if_pos hc, if_pos (hcov p (List.mem_cons_self p ps) hc)]
      · rw [if_neg (fun hmem => hc (hin _ hmem)), if_neg hc]

theorem groupSum_map_groupSum [DecidableEq K] [DecidableEq L]
    {le₁ : K → K → Bool} {le₂ : L → L → Bool}
    (htot : ∀ a b, le₂ a b ∨ le₂ b a) (htr : ∀ a b c, le₂ a b → le₂ b c → le₂ a c)
    (hanti : ∀ a b, le₂ a b → le₂ b a → a = b)
    (f : K → L) (ps : List (K × ℚ)) :
    groupSum le₂ ((groupSum le₁ ps).map (fun q => (f q.1, q.2))) =
      groupSum le₂ (ps.map (fun q => (f q.1, q.2))) := by
  have hinner : (groupSum le₁ ps).map (fun q => (f q.1, q.2)) =
      (sortLe le₁ (ps.map Prod.fst).dedup).map (fun k => (f k, sumKey k ps)) := by
    simp [groupSum, List.map_map, Function.comp]
  have hkeys₁ : (sortLe le₁ (ps.map Prod.fst).dedup).Nodup :=
    sortLe_nodup (List.nodup_dedup _)
  have hmemkeys : ∀ k, k ∈ sortLe le₁ (ps.map Prod.fst).dedup ↔ k ∈ ps.map Prod.fst := by
    intro k
    rw [mem_sortLe, List.mem_dedup]
  have hkeyperm :
      (((sortLe le₁ (ps.map Prod.fst).dedup).map (fun k => (f k, sumKey k ps))).map
        Prod.fst).dedup.Perm ((ps.map (fun q => (f q.1, q.2))).map Prod.fst).dedup := by
    refine (List.perm_ext_iff_of_nodup (List.nodup_dedup _) (List.nodup_dedup _)).mpr ?_
    intro a
    simp only [List.mem_dedup, List.mem_map, List.map_map, Function.comp]
    constructor
    · rintro ⟨k, hk, rfl⟩
      rcases List.mem_map.mp ((hmemkeys k).mp hk) with ⟨q, hq, rfl⟩
      exact ⟨q, hq, rfl⟩
    · rintro ⟨q, hq, rfl⟩
      exact ⟨q.1, (hmemkeys q.1).mpr (List.mem_map_of_mem Prod.fst hq), rfl⟩
  have hvals : ∀ c, sumKey c ((sortLe le₁ (ps.map Prod.fst).dedup).map
      (fun k => (f k, sumKey k ps))) = sumKey c (ps.map (fun q => (f q.1, q.2))) := by
    intro c
    have hfil : sumKey c ((sortLe le₁ (ps.map Prod.fst).dedup).map
        (fun k => (f k, sumKey k ps))) =
        sumOver ((sortLe le₁ (ps.map Prod.fst).dedup).filter (fun k => f k = c)) ps := by
      simp only [sumKey, sumOver, List.filter_map, List.map_map]
      rfl
    rw [hfil]
    refine sumOver_eq_sumKey_map f c ps _ (hkeys₁.filter _) ?_ ?_
    · intro q hq hqc
      refine List.mem_filter.mpr ⟨(hmemkeys q.1).mpr (List.mem_map_of_mem Prod.fst hq), ?_⟩
      simpa using hqc
    · intro k hk
      simpa using (List.mem_filter.mp hk).2
  rw [hinner]
  unfold groupSum
  rw [sortLe_eq_of_perm htot htr hanti hkeyperm]
  exact List.map_congr_left (fun c _ => by rw [hvals c])

theorem co2Index_eq_none_iff (hs : List String) :
    co2Index hs = none ↔ hs.filter (fun c => !(knownCols.contains c)) = [] := by
  rw [co2Index, List.findIdx?_eq_none_iff, List.filter_eq_nil_iff]
  simp

theorem load_ok_eq (f : CSVFile) (i : Nat) (h : co2Index f.extraHeaders = some i) :
    load (some f) = .ok (f.rows.filterMap (convRow i)) := by
  simp only [load, h]
  congr 1
  rw [List.filterMap_filter, List.filterMap_map]
  refine List.filterMap_congr ?_
  intro r _
  by_cases hl : (upStr r.code).length = 3
  · simp [convRow, hl, Function.comp]
  · simp [convRow, hl, Function.comp]

/-- Claim C6: load fails with the not-found error exactly when the path
does not exist, fails with the schema error exactly when zero candidate
value columns remain after removing the known columns, and succeeds on
every other well-formed input. -/
theorem load_error_characterization :
    (∀ file : Option CSVFile, load file = .error .notFound ↔ file = none) ∧
    (∀ f : CSVFile, load (some f) = .error .schemaError ↔
      f.extraHeaders.filter (fun c => !(knownCols.contains c)) = []) ∧
    (∀ f : CSVFile, f.extraHeaders.filter (fun c => !(knownCols.contains c)) ≠ [] →
      ∃ rows, load (some f) = .ok rows) := by
  refine ⟨?_, ?_, ?_⟩
  · intro file
    cases file with
    | none => simp [load]
    | some f =>
        simp only [load]
        cases co2Index f.extraHeaders with
        | none => simp
        | some i => simp
  · intro f
    rw [← co2Index_eq_none_iff]
    simp only [load]
    cases co2Index f.extraHeaders with
    | none => simp
    | some i => simp
  · intro f hne
    have hne2 : co2Index f.extraHeaders ≠ none :=
      fun hnone => hne ((co2Index_eq_none_iff _).mp hnone)
    rcases Option.ne_none_iff_exists'.mp hne2 with ⟨i, hi⟩
    exact ⟨_, load_ok_eq f i hi⟩

/-- Claim C6 witness: a file whose only extra column is named like a
known column fails with the schema error, and a file with a genuine value
column loads successfully. -/
theorem load_error_characterization_witness :
    load (some exCsvNoValue) = .error .schemaError ∧
    (∃ rows, load (some exCsv) = .ok rows) ∧
    load none = .error .notFound := by
  refine ⟨?_, ?_, ?_⟩
  · exact (load_error_characterization.2.1 exCsvNoValue).mpr (by decide)
  · exact load_error_characterization.2.2 exCsv (by decide)
  · exact (load_error_characterization.1 none).mpr rfl

/-- Claim C10: the loader is an order-preserving filter of the input
rows: given the detected value column, the output is exactly the
filterMap of the input rows in their original order, where a row is
dropped precisely when its uppercased code does not have length 3 or its
value is missing, and is otherwise transformed in place — so surviving
rows are never reordered or duplicated. -/
theorem load_orderPreserving (f : CSVFile) (i : Nat) (rows : List Row)
    (hidx : co2Index f.extraHeaders = some i) (h : load (some f) = .ok rows) :
    rows = f.rows.filterMap (convRow i) := by
  have he := load_ok_eq f i hidx
  rw [he] at h
  exact ((Except.ok.injEq _ _).mp h).symm

/-- Claim C10 witness: on the example file the loader keeps, in order,
exactly the two rows with a valid code and a present value. -/
theorem load_orderPreserving_witness :
    load (some exCsv) = .ok [⟨"Chile", "CHL", 2000, 10⟩, ⟨"Peru", "PER", 2000, 7⟩] ∧
    [(⟨"Chile", "CHL", 2000, 10⟩ : Row), ⟨"Peru", "PER", 2000, 7⟩] =
      exCsv.rows.filterMap (convRow 0) := by
  have hld : load (some exCsv) =
      .ok [⟨"Chile", "CHL", 2000, 10⟩, ⟨"Peru", "PER", 2000, 7⟩] := by rfl
  exact ⟨hld, load_orderPreserving exCsv 0 _ rfl hld⟩

/-- Claim C7: every row of a loaded table has a code of length exactly 3
that is a fixed point of ASCII uppercasing; its co2 is a present rational
and its year an integer by construction, and the output columns are the
fields country, code, year, co2 in declaration order. -/
theorem load_code_invariants (f : CSVFile) (rows : List Row)
    (h : load (some f) = .ok rows) :
    ∀ r ∈ rows, r.code.length = 3 ∧ upStr r.code = r.code := by
  cases hidx : co2Index f.extraHeaders with
  | none => simp [load, hidx] at h
  | some i =>
      rw [load_ok_eq f i hidx] at h
      have hrows := ((Except.ok.injEq _ _).mp h).symm
      subst hrows
      intro r hr
      rcases List.mem_filterMap.mp hr with ⟨raw, _, hconv⟩
      unfold convRow at hconv
      by_cases hl : (upStr raw.code).length = 3
      · rw [if_pos hl] at hconv
        cases hv : raw.extra.getD i none with
        | none => rw [hv] at hconv; cases hconv
        | some v =>
            rw [hv] at hconv
            cases hconv
            exact ⟨hl, upStr_upStr raw.code⟩
      · rw [if_neg hl] at hconv; cases hconv

/-- Claim C7 witness: the loaded example table's first row has a
length-3 uppercase code. -/
theorem load_code_invariants_witness :
    ("CHL" : String).length = 3 ∧ upStr "CHL" = "CHL" := by
  have hld : load (some exCsv) =
      .ok [⟨"Chile", "CHL", 2000, 10⟩, ⟨"Peru", "PER", 2000, 7⟩] := by rfl
  have hm := load_code_invariants exCsv _ hld ⟨"Chile", "CHL", 2000, 10⟩
    (List.mem_cons_self _ _)
  simpa using hm

/-- Claim C8: countrySeries returns exactly the rows whose country is
selected and whose year lies in the inclusive range; an empty selection
gives an empty result without failure; and on the end-to-end example
rows the series of country A over 2000-2001 is as the spec states. -/
theorem countrySeries_spec (table : List Row) (countries : List String)
    (yearLo yearHi : Int) :
    (∀ r : Row, r ∈ countrySeries table countries yearLo yearHi ↔
      (r ∈ table ∧ r.country ∈ countries ∧ yearLo ≤ r.year ∧ r.year ≤ yearHi)) ∧
    countrySeries table [] yearLo yearHi = [] ∧
    countrySeries exTable ["A"] 2000 2001 =
      [⟨"A", "AAA", 2000, 10⟩, ⟨"A", "AAA", 2001, 12⟩] := by
  refine ⟨?_, ?_, ?_⟩
  · intro r
    simp [countrySeries, List.mem_filter, and_assoc]
  · refine List.filter_eq_nil_iff.mpr ?_
    intro r _
    simp
  · decide

/-- Claim C4 (counterexample): passing an inverted year range to the
range-based views produces an ordinary empty table on a nonempty input
— no rejection of the range takes place. -/
theorem range_views_inverted_counterexample :
    countrySeries exTable ["A"] 2001 2000 = [] ∧
    rankEvolution exTable ["A"] 2001 2000 = [] := by
  decide

/-- Claim C4 (amended): a year range with yearLo > yearHi makes both
range-based views return the empty table: the bounds are not swapped and
no failure is signalled. -/
theorem range_views_empty_of_inverted (table : List Row) (countries : List String)
    (yearLo yearHi : Int) (h : yearHi < yearLo) :
    countrySeries table countries yearLo yearHi = [] ∧
    rankEvolution table countries yearLo yearHi = [] := by
  constructor
  · refine List.filter_eq_nil_iff.mpr ?_
    intro r _
    simp only [Bool.and_eq_true, decide_eq_true_eq, not_and]
    intro _ h1
    omega
  · have hp : rangePairs table yearLo yearHi = [] := by
      unfold rangePairs
      rw [List.filter_eq_nil_iff.mpr ?_, List.map_nil]
      intro r _
      simp only [Bool.and_eq_true, decide_eq_true_eq, not_and]
      omega
    simp [rankEvolution, rankEvolutionAll, yearCountryTotals, hp, groupSum, sortLe]

/-- Claim C4 witness (amended): concrete inverted range on the example
table. -/
theorem range_views_empty_of_inverted_witness :
    countrySeries exTable ["B"] 2005 2003 = [] ∧
    rankEvolution exTable ["B"] 2005 2003 = [] :=
  range_views_empty_of_inverted exTable ["B"] 2005 2003 (by decide)

theorem sumKey_yearPairs (table : List Row) (y : Int) :
    sumKey y (yearPairs table) =
      ((table.filter (fun r => r.year = y)).map Row.co2).sum := by
  induction table with
  | nil => rfl
  | cons r tl ih =>
      simp only [yearPairs, List.map_cons] at ih ⊢
      rw [sumKey_cons]
      by_cases hy : r.year = y
      · simp [List.filter_cons, hy, ih]
      · simp [List.filter_cons, hy, ih]

theorem lookupYear_eq_sumKey (table : List Row) (y : Int) (t : ℚ)
    (h : lookupYear (globalYearlyTotals table) y = some t) :
    t = ((table.filter (fun r => r.year = y)).map Row.co2).sum := by
  unfold lookupYear globalYearlyTotals at h
  cases hf : (groupSum intLe (yearPairs table)).find? (fun p => p.1 = y) with
  | none => rw [hf] at h; cases h
  | some q =>
      rw [hf] at h
      injection h with h
      have hq : q.1 = y := of_decide_eq_true
        (@List.find?_some (Int × ℚ) (fun p => decide (p.1 = y)) q
          (groupSum intLe (yearPairs table)) hf)
      have hmem := mem_groupSum (List.mem_of_find?_eq_some hf)
      rw [← h, hmem.1, hq, sumKey_yearPairs]

/-- Claim C5: on a table containing a year whose global total is zero,
the global-share computation still produces one output row per input row
of that year, each with the undefined share value (the NaN of the
source), and signals no failure. -/
theorem globalShare_zero_total_undefined (table : List Row) (y : Int)
    (h : lookupYear (globalYearlyTotals table) y = some 0) :
    (globalSharePercent table (table.filter (fun r => r.year = y))).length =
      (table.filter (fun r => r.year = y)).length ∧
    ∀ p ∈ globalSharePercent table (table.filter (fun r => r.year = y)),
      p.share = none := by
  constructor
  · simp [globalSharePercent]
  · intro p hp
    rcases List.mem_map.mp hp with ⟨r, hr, rfl⟩
    have hy : r.year = y := of_decide_eq_true (List.mem_filter.mp hr).2
    simp [shareOf, hy, h]

/-- Claim C5 witness: a concrete table whose single year totals zero. -/
theorem globalShare_zero_total_undefined_witness :
    (globalSharePercent exZeroTable (exZeroTable.filter (fun r => r.year = 2000))).length =
      (exZeroTable.filter (fun r => r.year = 2000)).length := by
  have h : lookupYear (globalYearlyTotals exZeroTable) 2000 = some 0 := by
    norm_num [lookupYear, globalYearlyTotals, yearPairs, exZeroTable, groupSum,
      sumKey, sortLe, insertLe, intLe, List.dedup, List.pwFilter, List.filter,
      List.find?]
  exact (globalShare_zero_total_undefined exZeroTable 2000 h).1

/-- Claim C2: for a year whose global total is nonzero, computing the
global shares for every row of that year yields defined shares that sum
exactly to 100 in exact rational arithmetic. -/
theorem globalShare_sums_to_100 (table : List Row) (y : Int) (t : ℚ)
    (h : lookupYear (globalYearlyTotals table) y = some t) (ht : t ≠ 0) :
    (∀ p ∈ globalSharePercent table (table.filter (fun r => r.year = y)),
      p.share = some (p.co2 / t * 100)) ∧
    ((globalSharePercent table (table.filter (fun r => r.year = y))).map
      (fun p => p.share.getD 0)).sum = 100 := by
  have hall : ∀ p ∈ globalSharePercent table (table.filter (fun r => r.year = y)),
      p.share = some (p.co2 / t * 100) := by
    intro p hp
    rcases List.mem_map.mp hp with ⟨r, hr, rfl⟩
    have hy : r.year = y := of_decide_eq_true (List.mem_filter.mp hr).2
    simp [shareOf, hy, h, ht]
  refine ⟨hall, ?_⟩
  have hmap : (globalSharePercent table (table.filter (fun r => r.year = y))).map
      (fun p => p.share.getD 0) =
      (table.filter (fun r => r.year = y)).map (fun r => Row.co2 r * (100 / t)) := by
    unfold globalSharePercent
    rw [List.map_map]
    refine List.map_congr_left ?_
    intro r hr
    have hy : r.year = y := of_decide_eq_true (List.mem_filter.mp hr).2
    simp only [Function.comp, shareOf, hy, h, if_neg ht, Option.getD_some]
    ring
  rw [hmap, List.sum_map_mul_right, ← lookupYear_eq_sumKey table y t h]
  field_simp

/-- Claim C2 witness: the end-to-end example table's year 2000, with
global total 40, yields shares summing to 100. -/
theorem globalShare_sums_to_100_witness :
    ((globalSharePercent exTable (exTable.filter (fun r => r.year = 2000))).map
      (fun p => p.share.getD 0)).sum = 100 := by
  have h : lookupYear (globalYearlyTotals exTable) 2000 = some 40 := by
    norm_num [lookupYear, globalYearlyTotals, yearPairs, exTable, groupSum,
      sumKey, sortLe, insertLe, intLe, List.dedup, List.pwFilter, List.filter,
      List.find?]
  exact (globalShare_sums_to_100 exTable 2000 40 h (by norm_num)).2

/-- Claim C3: the Lorenz block keeps exactly the positive per-country
totals of the selected year, sorted ascending by total; with n remaining
countries the 1-indexed i-th point equals (i/n, cumulativeSum/totalSum);
zero positive countries give the explicitly empty result rather than a
failure; and on totals {5,5,10} the points are (1/3,1/4), (2/3,1/2),
(1,1). -/
theorem lorenzCurve_spec (table : List Row) (y : Int) :
    (lorenzCurve table y).length = (lorenzBase table y).length ∧
    (∀ i, i < (lorenzBase table y).length →
      (lorenzCurve table y)[i]? = some
        ((((i : ℕ) + 1 : ℕ) : ℚ) / ((lorenzBase table y).length : ℚ),
         (((lorenzBase table y).take (i + 1)).map Prod.snd).sum /
           ((lorenzBase table y).map Prod.snd).sum)) ∧
    List.Pairwise (fun a b : String × ℚ => a.2 ≤ b.2) (lorenzBase table y) ∧
    (lorenzBase table y).Perm
      ((groupSum strLe (countryPairsOfYear table y)).filter (fun p => 0 < p.2)) ∧
    ((groupSum strLe (countryPairsOfYear table y)).filter (fun p => 0 < p.2) = [] →
      lorenzCurve table y = []) ∧
    lorenzCurve exLorenzTable 2000 =
      [(1/3, 1/4), (2/3, 1/2), (1, 1)] := by
  refine ⟨?_, ?_, ?_, ?_, ?_, ?_⟩
  · simp [lorenzCurve]
  · intro i hi
    simp only [lorenzCurve]
    rw [List.getElem?_map, List.getElem?_range hi]
    rfl
  · refine List.Pairwise.imp ?_ (sortLe_pairwise ascBySnd_total ascBySnd_trans _)
    intro a b hab
    exact of_decide_eq_true hab
  · exact sortLe_perm _ _
  · intro h
    simp [lorenzCurve, lorenzBase, h, sortLe]
  · have hg : groupSum strLe (countryPairsOfYear exLorenzTable 2000) =
        [("A", 5), ("B", 5), ("C", 10)] := by
      simp +decide [groupSum, sumKey, countryPairsOfYear, exLorenzTable,
        sortLe, insertLe, strLe, chListLe, List.dedup, List.pwFilter,
        List.filter]
    have hb : lorenzBase exLorenzTable 2000 = [("A", 5), ("B", 5), ("C", 10)] := by
      simp only [lorenzBase, hg]
      decide
    simp only [lorenzCurve, hb]
    norm_num [List.range_succ]

/-- Claim C3 witness: the first point of the example curve follows the
general point formula. -/
theorem lorenzCurve_spec_witness :
    (lorenzCurve exLorenzTable 2000)[0]? = some
      ((((0 : ℕ) + 1 : ℕ) : ℚ) / ((lorenzBase exLorenzTable 2000).length : ℚ),
       (((lorenzBase exLorenzTable 2000).take (0 + 1)).map Prod.snd).sum /
         ((lorenzBase exLorenzTable 2000).map Prod.snd).sum) := by
  refine (lorenzCurve_spec exLorenzTable 2000).2.1 0 ?_
  have hg : groupSum strLe (countryPairsOfYear exLorenzTable 2000) =
      [("A", 5), ("B", 5), ("C", 10)] := by
    simp +decide [groupSum, sumKey, countryPairsOfYear, exLorenzTable,
      sortLe, insertLe, strLe, chListLe, List.dedup, List.pwFilter,
      List.filter]
  simp only [lorenzBase, hg]
  decide

/-- Claim C1: rankEvolution ranks every country present in each year of
the range by descending summed co2 with minimum rank on ties — a rank is
one more than the number of countries of the same year with strictly
greater total, so tied totals share the lowest rank and the sequence
skips numbers after a tie block — and only afterwards restricts the
output to the requested countries; on the synthetic year with totals
A:100, B:100, C:50 the ranks are A:1, B:1, C:3. -/
theorem rankEvolution_spec (table : List Row) (countries : List String)
    (yearLo yearHi : Int) :
    rankEvolution table countries yearLo yearHi =
      (rankEvolutionAll table yearLo yearHi).filter
        (fun r => r.country ∈ countries) ∧
    (∀ r ∈ rankEvolutionAll table yearLo yearHi,
      r.rank = 1 + ((yearCountryTotals table yearLo yearHi).filter
        (fun q => q.1.1 = r.year ∧ r.co2 < q.2)).length ∧
      r.co2 = sumKey (r.year, r.country) (rangePairs table yearLo yearHi)) ∧
    (∀ r₁ ∈ rankEvolutionAll table yearLo yearHi,
      ∀ r₂ ∈ rankEvolutionAll table yearLo yearHi,
        r₁.year = r₂.year → r₁.co2 = r₂.co2 → r₁.rank = r₂.rank) ∧
    rankEvolution exRankTable ["A", "B", "C"] 2000 2000 =
      [⟨2000, "A", 100, 1⟩, ⟨2000, "B", 100, 1⟩, ⟨2000, "C", 50, 3⟩] := by
  refine ⟨rfl, ?_, ?_, ?_⟩
  · intro r hr
    simp only [rankEvolutionAll] at hr
    rcases List.mem_map.mp hr with ⟨p, hp, rfl⟩
    exact ⟨rfl, (mem_groupSum hp).1⟩
  · intro r₁ h₁ r₂ h₂
    simp only [rankEvolutionAll] at h₁ h₂
    rcases List.mem_map.mp h₁ with ⟨p, hp, rfl⟩
    rcases List.mem_map.mp h₂ with ⟨q, hq, rfl⟩
    intro hy hc
    simp only at hy hc
    rw [hy, hc]
  · have hg : yearCountryTotals exRankTable 2000 2000 =
        [((2000, "A"), 100), ((2000, "B"), 100), ((2000, "C"), 50)] := by
      simp +decide [yearCountryTotals, rangePairs, exRankTable, groupSum,
        sumKey, sortLe, insertLe, strLe, chListLe, intLe, lexLe, List.dedup,
        List.pwFilter, List.filter]
    simp only [rankEvolution, rankEvolutionAll, hg]
    decide

/-- Claim C1 witness: the rank-characterization conjunct instantiated at
the tied row of country A of the synthetic example. -/
theorem rankEvolution_spec_witness :
    (⟨2000, "A", 100, 1⟩ : RankRow).rank =
      1 + ((yearCountryTotals exRankTable 2000 2000).filter
        (fun q => q.1.1 = (⟨2000, "A", 100, 1⟩ : RankRow).year ∧
          (⟨2000, "A", 100, 1⟩ : RankRow).co2 < q.2)).length ∧
    (⟨2000, "A", 100, 1⟩ : RankRow).co2 =
      sumKey ((⟨2000, "A", 100, 1⟩ : RankRow).year,
          (⟨2000, "A", 100, 1⟩ : RankRow).country)
        (rangePairs exRankTable 2000 2000) := by
  refine (rankEvolution_spec exRankTable ["A", "B", "C"] 2000 2000).2.1 _ ?_
  have hg : yearCountryTotals exRankTable 2000 2000 =
      [((2000, "A"), 100), ((2000, "B"), 100), ((2000, "C"), 50)] := by
    simp +decide [yearCountryTotals, rangePairs, exRankTable, groupSum,
      sumKey, sortLe, insertLe, strLe, chListLe, intLe, lexLe, List.dedup,
      List.pwFilter, List.filter]
  simp only [rankEvolutionAll, hg]
  decide

/-- Claim C9: topN returns at most n rows sorted non-increasing by co2,
and equals the first n entries, by descending total, of the per-year
(country, code) totals collapsed by country alone. -/
theorem topN_spec (table : List Row) (y : Int) (n : Nat) :
    (topN table y n).length ≤ n ∧
    List.Pairwise (fun a b : String × ℚ => b.2 ≤ a.2) (topN table y n) ∧
    topN table y n =
      (sortLe descBySnd (collapseByCountry (yearTotalsByCountry table y))).take n := by
  refine ⟨?_, ?_, ?_⟩
  · simp [topN]
  · refine List.Pairwise.sublist (List.take_sublist n _) ?_
    refine List.Pairwise.imp ?_ (sortLe_pairwise descBySnd_total descBySnd_trans _)
    intro a b hab
    exact of_decide_eq_true hab
  · have hcoll : collapseByCountry (yearTotalsByCountry table y) =
        groupSum strLe (countryPairsOfYear table y) := by
      unfold collapseByCountry yearTotalsByCountry
      rw [groupSum_perm strLe_total strLe_trans strLe_antisymm
        ((sortLe_perm descBySnd _).map _)]
      rw [groupSum_map_groupSum strLe_total strLe_trans strLe_antisymm Prod.fst _]
      congr 1
      unfold ccPairsOfYear countryPairsOfYear
      rw [List.map_map]
      rfl
    rw [topN, hcoll]

end CO2
